import Mathlib

/-!
Verification of `yt_dlp/extractor/europa.py` (EuropaIE / EuroParlWebstreamIE).

Strings are modelled as `List Char`; the model is restricted to ASCII digits
(Python's `\d` additionally accepts other Unicode decimal digits, which never
occur in the timestamp data this module handles).
-/

/-! ## Shape combinators for the regex pre-checks of `_parse_datetime`

`re.match` anchors at the start of the string and allows trailing characters,
so the pre-checks are prefix matchers.  Every piece of the two regexes is
fixed-width except the fractional run `\.\d{1,7}`; since that run is followed
by `[+-]`, greedy matching with backtracking succeeds iff the maximal digit
run after the dot has length between 1 and 7 and is immediately followed by
the timezone shape.
-/

/-- Consume exactly `n` ASCII digits (the `\d{n}` shape). -/
def eatDigits : Nat → List Char → Option (List Char)
  | 0, cs => some cs
  | n + 1, c :: cs => if c.isDigit then eatDigits n cs else none
  | _ + 1, [] => none

/-- Consume one fixed literal character. -/
def eatChar (a : Char) : List Char → Option (List Char)
  | c :: cs => if c = a then some cs else none
  | [] => none

/-- Consume one sign character (the `[+-]` shape). -/
def eatSign : List Char → Option (List Char)
  | c :: cs => if c = '+' ∨ c = '-' then some cs else none
  | [] => none

/-- The `[+-]\d{2}:\d{2}` timezone shape, as a prefix check. -/
def tzShape (cs : List Char) : Bool :=
  (eatSign cs >>= eatDigits 2 >>= eatChar ':' >>= eatDigits 2).isSome

/-- The common `\d{4}-\d{2}-\d{2}T\d{2}:\d{2}:\d{2}` head of both regexes,
returning the unconsumed rest. -/
def dtHeadShape (cs : List Char) : Option (List Char) :=
  eatDigits 4 cs >>= eatChar '-' >>= eatDigits 2 >>= eatChar '-' >>= eatDigits 2 >>=
    eatChar 'T' >>= eatDigits 2 >>= eatChar ':' >>= eatDigits 2 >>= eatChar ':' >>=
    eatDigits 2

/-- `re.match(r"\d{4}-\d{2}-\d{2}T\d{2}:\d{2}:\d{2}\.\d{1,7}[+-]\d{2}:\d{2}", s)`
from `_parse_datetime` (europa.py line 23), as a Boolean prefix matcher. -/
def matchWithMicro (cs : List Char) : Bool :=
  match dtHeadShape cs with
  | none => false
  | some r =>
    match r with
    | '.' :: r2 =>
      let f := r2.takeWhile Char.isDigit
      decide (1 ≤ f.length) && decide (f.length ≤ 7) &&
        tzShape (r2.dropWhile Char.isDigit)
    | _ => false

/-- `re.match(r"\d{4}-\d{2}-\d{2}T\d{2}:\d{2}:\d{2}[+-]\d{2}:\d{2}", s)`
from `_parse_datetime` (europa.py line 24), as a Boolean prefix matcher. -/
def matchNoMicro (cs : List Char) : Bool :=
  match dtHeadShape cs with
  | none => false
  | some r => tzShape r

/-- Character scan behind `truncFrac`.  The state records the tail of a
fractional run being rewritten: `some (k+1)` copies the next digit (one of the
six that are kept), `some 0` drops the remaining digits of the run, `none`
scans for the next match of `\.\d{6}\d*`.  A dot is accepted exactly when at
least six digits follow, matching the regex; scanning resumes after the
matched run, so matches never overlap.  Structural recursion on the list
keeps the definition kernel-computable. -/
def truncGo (st : Option Nat) : List Char → List Char
  | [] => []
  | c :: cs =>
    match st with
    | some (k + 1) => c :: truncGo (some k) cs
    | some 0 =>
      if c.isDigit then truncGo (some 0) cs
      else if c = '.' ∧ 6 ≤ (cs.takeWhile Char.isDigit).length then
        '.' :: truncGo (some 6) cs
      else c :: truncGo none cs
    | none =>
      if c = '.' ∧ 6 ≤ (cs.takeWhile Char.isDigit).length then
        '.' :: truncGo (some 6) cs
      else c :: truncGo none cs

/-- `re.sub(r"(\.\d{6})\d*", r"\1", s)` from `_parse_datetime` (line 29):
every occurrence of a dot followed by at least six digits is replaced by the
dot and the first six digits; scanning resumes after the replaced run. -/
def truncFrac (l : List Char) : List Char := truncGo none l

/-! ## The strptime-style parses

`datetime_from_str(s, format=...)` is a host-framework utility whose code is
not part of these sources.  Modelled from the spec: an ISO-8601 parse with the
explicit format string (`"%Y-%m-%dT%H:%M:%S.%f%z"` respectively
`"%Y-%m-%dT%H:%M:%S%z"`): fixed-width fields, a fractional run of one to six
digits, a `±HH:MM` offset, the entire string consumed, and all field values
validated; on success it yields an absolute instant, modelled as microseconds
since the Unix epoch; any failure is the explicit no-value result (the source
catches the `ValueError` that `strptime` raises).
-/

/-- Numeric value of an ASCII digit. -/
def digitVal (c : Char) : Nat := c.toNat - '0'.toNat

/-- Read exactly `n` ASCII digits into a number (most significant first). -/
def readDigits : Nat → Nat → List Char → Option (Nat × List Char)
  | 0, acc, cs => some (acc, cs)
  | n + 1, acc, c :: cs =>
    if c.isDigit then readDigits n (acc * 10 + digitVal c) cs else none
  | _ + 1, _, [] => none

/-- Read a sign character; `true` means `+`. -/
def readSign : List Char → Option (Bool × List Char)
  | '+' :: cs => some (true, cs)
  | '-' :: cs => some (false, cs)
  | _ => none

/-- Numeric value of a digit run (most significant first). -/
def charsToNat (cs : List Char) : Nat :=
  cs.foldl (fun acc c => acc * 10 + digitVal c) 0

/-- Length of February etc. in the proleptic Gregorian calendar. -/
def daysInMonth (y m : Nat) : Nat :=
  if m = 2 then
    if y % 4 = 0 ∧ (y % 100 ≠ 0 ∨ y % 400 = 0) then 29 else 28
  else if m = 4 ∨ m = 6 ∨ m = 9 ∨ m = 11 then 30
  else 31

/-- Days from 1970-01-01 to year `y`, month `m`, day `d` (civil calendar). -/
def daysFromCivil (y m d : Nat) : Int :=
  let yy : Int := if m ≤ 2 then (y : Int) - 1 else (y : Int)
  let era : Int := yy / 400
  let yoe : Int := yy - era * 400
  let mp : Int := ((m : Int) + 9) % 12
  let doy : Int := (153 * mp + 2) / 5 + (d : Int) - 1
  let doe : Int := yoe * 365 + yoe / 4 - yoe / 100 + doy
  era * 146097 + doe - 719468

/-- Validate the parsed fields (as `datetime` would) and build the instant in
microseconds since the epoch.  Seconds 60 and 61 are rejected just as the
`datetime` constructor rejects them, and the offset must be shorter than a
full day. -/
def mkInstant (y mo d h mi s micro : Nat) (sgnPlus : Bool) (th tm : Nat) :
    Option Int :=
  if 1 ≤ y ∧ 1 ≤ mo ∧ mo ≤ 12 ∧ 1 ≤ d ∧ d ≤ daysInMonth y mo ∧
      h ≤ 23 ∧ mi ≤ 59 ∧ s ≤ 59 ∧ th * 3600 + tm * 60 < 86400 then
    let off : Int := ((th * 3600 + tm * 60 : Nat) : Int)
    some ((daysFromCivil y mo d * 86400 + ((h * 3600 + mi * 60 + s : Nat) : Int) -
      (if sgnPlus then off else -off)) * 1000000 + (micro : Int))
  else none

/-- Modelled from the spec: `datetime_from_str` with the explicit format
`"%Y-%m-%dT%H:%M:%S.%f%z"` (the "with microseconds" parse), returning
microseconds since the epoch, or no value where Python raises `ValueError`. -/
def strptimeWithMicro (cs : List Char) : Option Int := do
  let (y, r) ← readDigits 4 0 cs
  let r ← eatChar '-' r
  let (mo, r) ← readDigits 2 0 r
  let r ← eatChar '-' r
  let (d, r) ← readDigits 2 0 r
  let r ← eatChar 'T' r
  let (h, r) ← readDigits 2 0 r
  let r ← eatChar ':' r
  let (mi, r) ← readDigits 2 0 r
  let r ← eatChar ':' r
  let (s, r) ← readDigits 2 0 r
  let r ← eatChar '.' r
  let frac := r.takeWhile Char.isDigit
  let r := r.dropWhile Char.isDigit
  if frac.length < 1 ∨ 6 < frac.length then none else
  let micro := charsToNat frac * 10 ^ (6 - frac.length)
  let (sgn, r) ← readSign r
  let (th, r) ← readDigits 2 0 r
  let r ← eatChar ':' r
  let (tm, r) ← readDigits 2 0 r
  if r ≠ [] then none else
  mkInstant y mo d h mi s micro sgn th tm

/-- Modelled from the spec: `datetime_from_str` with the explicit format
`"%Y-%m-%dT%H:%M:%S%z"` (the "without microseconds" parse). -/
def strptimeNoMicro (cs : List Char) : Option Int := do
  let (y, r) ← readDigits 4 0 cs
  let r ← eatChar '-' r
  let (mo, r) ← readDigits 2 0 r
  let r ← eatChar '-' r
  let (d, r) ← readDigits 2 0 r
  let r ← eatChar 'T' r
  let (h, r) ← readDigits 2 0 r
  let r ← eatChar ':' r
  let (mi, r) ← readDigits 2 0 r
  let r ← eatChar ':' r
  let (s, r) ← readDigits 2 0 r
  let (sgn, r) ← readSign r
  let (th, r) ← readDigits 2 0 r
  let r ← eatChar ':' r
  let (tm, r) ← readDigits 2 0 r
  if r ≠ [] then none else
  mkInstant y mo d h mi s 0 sgn th tm

/-- `_parse_datetime` (europa.py lines 19-41).  The first regex pre-check, on
success, rebinds the string to its truncation before parsing; if that parse
raises, the second pre-check therefore runs on the truncated string.  Both
parse attempts catch `ValueError`; if everything fails the function returns
`None`, modelled as `none`. -/
def parse_datetime (s : List Char) : Option Int :=
  if matchWithMicro s then
    let s2 := truncFrac s
    match strptimeWithMicro s2 with
    | some t => some t
    | none => if matchNoMicro s2 then strptimeNoMicro s2 else none
  else
    if matchNoMicro s then strptimeNoMicro s else none

/-! ## Language preferences (`EuropaIE._real_extract`, lines 84-96) -/

/-- Modelled from the spec: `orderedSet` (a host-framework utility, not in
these sources) removes duplicates while preserving first-occurrence order;
the Python implementation keeps a `seen` list and emits each element not yet
seen. -/
def orderedSetAux (seen : List String) : List String → List String
  | [] => []
  | x :: xs =>
    if x ∈ seen then orderedSetAux seen xs
    else x :: orderedSetAux (x :: seen) xs

/-- Modelled from the spec: deduplication preserving first-occurrence order. -/
def orderedSet (l : List String) : List String := orderedSetAux [] l

/-- `preferred_langs = orderedSet((preferred_lang, 'en', 'int'))` (line 87). -/
def preferredLangs (preferred : String) : List String :=
  orderedSet [preferred, "en", "int"]

/-- Modelled from the spec: `qualities` (host-framework utility, not in these
sources): given the list of ids, an id's rank is its first position in that
list; anything not in the list (including a missing value) ranks `-1`. -/
def qualities (ids : List String) (q : Option String) : Int :=
  match q with
  | none => -1
  | some s =>
    match ids.indexOf? s with
    | some i => (i : Int)
    | none => -1

/-- `language_preference = qualities(preferred_langs[::-1])` (line 96): ranks
are taken over the reversed preference list, so the first-preferred language
gets the highest rank. -/
def languagePreference (prefs : List String) (lang : Option String) : Int :=
  qualities prefs.reverse lang

/-! ## `get_item` (lines 74-82): localized field resolution -/

/-- Python `str.strip()`, restricted to ASCII whitespace. -/
def pyStrip (s : String) : String :=
  ⟨((s.data.dropWhile Char.isWhitespace).reverse.dropWhile
      Char.isWhitespace).reverse⟩

/-- The dictionary built by the loop in `get_item` (lines 75-79): one
`(lg, label)` pair per `<item>` element (each possibly absent), keeping, for
each language with both fields non-empty, the last stripped label.  The
dictionary is modelled as a lookup function defaulting to `none`. -/
def buildItems (entries : List (Option String × Option String)) :
    String → Option String :=
  entries.foldl
    (fun items e =>
      match e with
      | (some lang, some label) =>
        if lang ≠ "" ∧ label ≠ "" then
          fun k => if k = lang then some (pyStrip label) else items k
        else items
      | _ => items)
    (fun _ => none)

/-- The preference loop of `get_item` (lines 80-82): return `items[p]` for
the first preferred language `p` whose entry is present and non-empty
(Python truthiness of `items.get(p)`); otherwise fall through to `None`. -/
def getItemLookup (items : String → Option String) : List String → Option String
  | [] => none
  | p :: ps =>
    match items p with
    | some v => if v ≠ "" then some v else getItemLookup items ps
    | none => getItemLookup items ps

/-- `get_item(type_, preference)`: build the language→label dictionary from
the playlist items of the requested type, then resolve by preference. -/
def get_item (entries : List (Option String × Option String))
    (preference : List String) : Option String :=
  getItemLookup (buildItems entries) preference

/-- Python `a or b` for an optional string `a` and a string default `b`
(line 89: `get_item('title', preferred_langs) or video_id`). -/
def pyOrStr (a : Option String) (b : String) : String :=
  match a with
  | some s => if s ≠ "" then s else b
  | none => b

/-- The resolver as the spec states it: the candidate of the first language
in the preference list that has a non-empty candidate. -/
def resolveSpec (items : String → Option String) (preference : List String) :
    Option String :=
  (preference.find? (fun p => (items p).getD "" != "")).bind items

/-! ## `EuropaIE` format list (lines 98-109) -/

/-- One `<file>` element of the playlist: each child is optional text. -/
structure PlaylistFile where
  url : Option String
  lg : Option String
  lglabel : Option String
deriving DecidableEq

/-- One entry of the `formats` list built by `EuropaIE._real_extract`. -/
structure EuropaFormat where
  url : String
  format_id : Option String
  format_note : Option String
  language_preference : Int
deriving DecidableEq

/-- The format loop (lines 98-109): files whose `<url>` text is absent or
empty are skipped (`if not video_url: continue`); the rest become format
entries ranked by `language_preference`. -/
def buildFormats (prefs : List String) (files : List PlaylistFile) :
    List EuropaFormat :=
  files.filterMap (fun f =>
    match f.url with
    | none => none
    | some u =>
      if u = "" then none
      else some
        { url := u
          format_id := f.lg
          format_note := f.lglabel
          language_preference := languagePreference prefs f.lg })

/-! ## `EuroParlWebstreamIE`: duration, track languages, subtitles, title -/

/-- Lines 190-192: both timestamp fields are fed through `_parse_datetime`
and subtracted; `total_seconds()` of the difference is floored.  A missing
field makes `re.match` throw a `TypeError`; a failed parse leaves `None`,
and `None - None` throws a `TypeError` as well.  Either exception aborts the
extraction, modelled as `Except.error`. -/
def videoDuration (startStr endStr : Option (List Char)) : Except String Int :=
  match startStr, endStr with
  | some ss, some es =>
    match parse_datetime ss, parse_datetime es with
    | some s, some e => Except.ok ((e - s).fdiv 1000000)
    | _, _ => Except.error "TypeError: unsupported operand type for -"
  | _, _ => Except.error "TypeError: expected string or bytes-like object"

/-- One entry of the `meetingAudio` side list of the meeting record. -/
structure MeetingAudio where
  trackIdentifier : Option String
  language : Option String
deriving DecidableEq

/-- `_get_lang` (lines 194-200): `None` stays `None`; otherwise scan the
`meetingAudio` list and return the `language` of the first entry whose
`trackIdentifier` equals the argument; no match yields `None`. -/
def getLang (audios : List MeetingAudio) (tid : Option String) : Option String :=
  match tid with
  | none => none
  | some t => loop audios t
where
  loop : List MeetingAudio → String → Option String
    | [], _ => none
    | a :: rest, t =>
      if a.trackIdentifier = some t then a.language else loop rest t

/-- A format entry as returned by the manifest expander: only the fields the
relabeling touches are modelled. -/
structure Fmt where
  url : String
  language : Option String
deriving DecidableEq

/-- Lines 206-208: after extending `formats` with the manifest's entries,
each entry's `language` field (a track identifier) is overwritten with
`_get_lang` of itself; the entries are shared, so the net effect is a map
over the manifest's format list. -/
def relabelFormats (audios : List MeetingAudio) (fmts : List Fmt) : List Fmt :=
  fmts.map (fun f => { f with language := getLang audios f.language })

/-- The spec's description of the lookup: bind the optional identifier to
the first side-list entry with that `trackIdentifier`, then to its
`language`. -/
def getLangSpec (audios : List MeetingAudio) (tid : Option String) :
    Option String :=
  tid.bind (fun t =>
    (audios.find? (fun a => a.trackIdentifier == some t)).bind (·.language))

/-- One subtitle entry (URL or inline data), as the host framework keys
them for deduplication. -/
structure SubEntry where
  url : Option String
  data : Option String
deriving DecidableEq

/-- Modelled from the spec: `_merge_subtitle_items` (host framework, not in
these sources) keeps every existing entry and appends the new entries whose
(url, data) key is not already present. -/
def mergeSubtitleItems (old new : List SubEntry) : List SubEntry :=
  old ++ new.filter (fun e =>
    !(old.any (fun o => o.url == e.url && o.data == e.data)))

/-- Modelled from the spec: `_merge_subtitles(subs, target=subtitles)` (host
framework, not in these sources) merges a subtitle dictionary into the
running target language by language, additively.  Dictionaries are modelled
as functions from language to entry list (absent language = `[]`). -/
def mergeSubtitles (newSubs : List (String × List SubEntry))
    (target : String → List SubEntry) : String → List SubEntry :=
  newSubs.foldl
    (fun t p k => if k = p.1 then mergeSubtitleItems (t p.1) p.2 else t k)
    target

/-! ## Webstream title resolution (line 213) -/

/-- A fragment of the JSON documents this extractor traverses. -/
inductive JVal where
  | str : String → JVal
  | obj : List (String × JVal) → JVal
  | null : JVal

/-- Key lookup in a JSON object (keys are unique in a Python dict; the first
match is taken). -/
def jget : JVal → String → Option JVal
  | JVal.obj fields, k => (fields.find? (fun p => p.1 == k)).map (·.2)
  | _, _ => none

/-- Follow a key path. -/
def jgetPath : JVal → List String → Option JVal
  | v, [] => some v
  | v, k :: ks => (jget v k).bind (fun w => jgetPath w ks)

/-- A traversal result of `null` counts as no value (`traverse_obj` filters
`None` results). -/
def nonNull (r : Option JVal) : Option JVal :=
  match r with
  | some JVal.null => none
  | r => r

/-- Modelled from the spec: `traverse_obj(v, (path1, path2, ...),
get_all=False)` (host-framework utility, not in these sources) returns the
first path whose traversal yields a non-`None` value. -/
def traverseFirst (v : JVal) : List (List String) → Option JVal
  | [] => none
  | path :: rest =>
    match nonNull (jgetPath v path) with
    | some r => some r
    | none => traverseFirst v rest

/-- Line 213: `traverse_obj(webpage_nextjs, (('mediaItem', 'title'),
('title', )), get_all=False)`. -/
def websTitle (page : JVal) : Option JVal :=
  traverseFirst page [["mediaItem", "title"], ["title"]]

/-- The nested media-item title candidate, as the spec names it. -/
def nestedTitle (page : JVal) : Option JVal :=
  nonNull (jgetPath page ["mediaItem", "title"])

/-- The sibling top-level title candidate, as the spec names it. -/
def siblingTitle (page : JVal) : Option JVal :=
  nonNull (jgetPath page ["title"])

/-- The spec's resolution order: the first non-absent candidate among the
nested title and the sibling title, in that fixed order. -/
def titleSpec (page : JVal) : Option JVal :=
  match nestedTitle page with
  | some t => some t
  | none => siblingTitle page

/-- A list that does not start with an ASCII digit (used to delimit maximal
digit runs). -/
def noDigitHead : List Char → Prop
  | [] => True
  | c :: _ => c.isDigit = false

/-- The maximal fractional digit run of a string of the regexes' shape: the
digits right after the dot that follows the 19-character datetime head. -/
def fracDigits (s : List Char) : List Char :=
  match dtHeadShape s with
  | some ('.' :: r2) => r2.takeWhile Char.isDigit
  | _ => []

/-! ## Theorems -/

/-- C2: for every string input that matches neither regex pre-check, or whose
parse attempts all fail (Python: raise `ValueError`, which is caught), the
datetime parser returns the explicit absent value `none`; the embedding is a
total function, so no exception escapes. -/
theorem parse_datetime_failure_yields_none (s : List Char)
    (h1 : matchWithMicro s = true → strptimeWithMicro (truncFrac s) = none)
    (h2 : matchWithMicro s = true → strptimeNoMicro (truncFrac s) = none)
    (h3 : matchWithMicro s = false → matchNoMicro s = true →
      strptimeNoMicro s = none) :
    parse_datetime s = none := by
  unfold parse_datetime
  cases hm : matchWithMicro s with
  | true =>
    simp only [if_pos rfl, h1 hm]
    by_cases hn : matchNoMicro (truncFrac s)
    · simp [hn, h2 hm]
    · simp [hn]
  | false =>
    simp only [Bool.false_eq_true, if_false]
    by_cases hn : matchNoMicro s
    · simp [hn, h3 hm hn]
    · simp [hn]

/-- Witness for C2 at the spec's example input `"not-a-date"`. -/
theorem parse_datetime_failure_yields_none_witness :
    parse_datetime "not-a-date".toList = none :=
  parse_datetime_failure_yields_none _ (by decide) (by decide) (by decide)

/-- C1 counterexample: the nine-fractional-digit example from the claim does
NOT match the with-microseconds regex pre-check (whose fractional shape is
`\.\d{1,7}` immediately followed by `[+-]`), so `_parse_datetime` returns
`None` for it instead of the instant of the six-digit string. -/
theorem parse_datetime_nine_digit_counterexample :
    matchWithMicro "2022-09-14T09:00:00.123456789+02:00".toList = false ∧
    parse_datetime "2022-09-14T09:00:00.123456789+02:00".toList = none ∧
    parse_datetime "2022-09-14T09:00:00.123456+02:00".toList =
      some 1663138800123456 := by
  refine ⟨by decide, by decide, by decide⟩

/-- C3: when both timestamps parse, the duration is floor(end − start) in
whole seconds (34 for the spec's example pair); but when either parse fails,
the code does not produce an absent duration — the subtraction of `None`
raises a `TypeError` that aborts the extraction, and a missing field likewise
aborts inside `re.match`. -/
theorem video_duration_behavior :
    videoDuration (some "2022-09-14T09:00:00+02:00".toList)
        (some "2022-09-14T09:00:34+02:00".toList) = Except.ok 34 ∧
    videoDuration (some "2022-09-14T09:00:00+02:00".toList)
        (some "not-a-date".toList) =
      Except.error "TypeError: unsupported operand type for -" ∧
    videoDuration (some "2022-09-14T09:00:00+02:00".toList) none =
      Except.error "TypeError: expected string or bytes-like object" :=
  ⟨rfl, rfl, rfl⟩

/-- The preference loop of `get_item` returns exactly the candidate of the
first preferred language with a present, non-empty candidate. -/
theorem getItemLookup_eq_resolveSpec (items : String → Option String)
    (preference : List String) :
    getItemLookup items preference = resolveSpec items preference := by
  induction preference with
  | nil => rfl
  | cons p ps ih =>
    by_cases hp : (items p).getD "" = ""
    · have hL : getItemLookup items (p :: ps) = getItemLookup items ps := by
        cases h : items p with
        | none => simp [getItemLookup, h]
        | some v =>
          have hv : v = "" := by simpa [h] using hp
          simp [getItemLookup, h, hv]
      have hF : (p :: ps).find? (fun q => (items q).getD "" != "") =
          ps.find? (fun q => (items q).getD "" != "") := by
        simp [List.find?_cons, hp]
      rw [hL, ih, resolveSpec, resolveSpec, hF]
    · obtain ⟨v, hv, hvne⟩ : ∃ v, items p = some v ∧ v ≠ "" := by
        cases h : items p with
        | none => simp [h] at hp
        | some v => exact ⟨v, rfl, by simpa [h] using hp⟩
      have hL : getItemLookup items (p :: ps) = some v := by
        simp [getItemLookup, hv, hvne]
      have hF : (p :: ps).find? (fun q => (items q).getD "" != "") = some p := by
        simp [List.find?_cons, hp]
      rw [hL, resolveSpec, hF]
      simp [hv]

/-- C4: `get_item` returns the candidate of the first language in the
preference list with a non-empty candidate in the dictionary built from the
playlist items; when no preferred language has a non-empty candidate, the
Python `or` fallback substitutes the caller's default. -/
theorem get_item_first_preferred
    (entries : List (Option String × Option String))
    (preference : List String) (dflt : String) :
    get_item entries preference = resolveSpec (buildItems entries) preference ∧
    ((∀ p ∈ preference, (buildItems entries p).getD "" = "") →
      pyOrStr (get_item entries preference) dflt = dflt) := by
  refine ⟨getItemLookup_eq_resolveSpec _ _, fun hall => ?_⟩
  have hfind :
      preference.find? (fun p => (buildItems entries p).getD "" != "") = none := by
    apply List.find?_eq_none.mpr
    intro p hp
    simp [hall p hp]
  have : get_item entries preference = none := by
    rw [get_item, getItemLookup_eq_resolveSpec, resolveSpec, hfind]
    rfl
  simp [this, pyOrStr]

/-- Witness for C4: a single item whose label strips to the empty string
leaves every preferred language without a candidate, so the default (the
video identifier) is used. -/
theorem get_item_first_preferred_witness :
    pyOrStr (get_item [(some "en", some " ")] ["en", "int"]) "I107758" =
      "I107758" :=
  (get_item_first_preferred [(some "en", some " ")] ["en", "int"]
    "I107758").2 (by decide)

/-- A value not in the list has no index. -/
theorem indexOf?_of_not_mem (l : List String) (x : String) (h : x ∉ l) :
    l.indexOf? x = none := by
  apply List.indexOf?_eq_none_iff.mpr
  intro a ha
  simp only [beq_iff_eq]
  exact fun e => h (e ▸ ha)

/-- In a duplicate-free list, the index of the `k`-th element is `k`. -/
theorem indexOf?_get_nodup :
    ∀ (l : List String), l.Nodup → ∀ (k : Fin l.length),
      l.indexOf? (l.get k) = some (k : Nat)
  | a :: rest, h, ⟨0, _⟩ => by simp [List.indexOf?_cons]
  | a :: rest, h, ⟨k + 1, hk⟩ => by
    have hk2 : k < rest.length := Nat.lt_of_succ_lt_succ hk
    have hmem : rest.get ⟨k, hk2⟩ ∈ rest := List.get_mem rest k hk2
    have hne : (a == rest.get ⟨k, hk2⟩) = false := by
      rw [beq_eq_false_iff_ne]
      intro e
      exact (List.nodup_cons.mp h).1 (e ▸ hmem)
    have hget : (a :: rest).get ⟨k + 1, hk⟩ = rest.get ⟨k, hk2⟩ := rfl
    rw [hget, List.indexOf?_cons]
    simp only [hne, Bool.false_eq_true, if_false]
    rw [indexOf?_get_nodup rest (List.nodup_cons.mp h).2 ⟨k, hk2⟩]
    rfl

/-- C5: over the reversed, duplicate-free preference list, the rank function
is a strict order consistent with the preference order: an earlier preferred
language outranks a later one, and any listed language outranks every
unlisted one. -/
theorem language_preference_strict_order (prefs : List String)
    (hnd : prefs.Nodup) (i j : Fin prefs.length) (hij : (i : Nat) < (j : Nat))
    (l : String) (hl : l ∉ prefs) :
    languagePreference prefs (some (prefs.get j)) <
      languagePreference prefs (some (prefs.get i)) ∧
    languagePreference prefs (some l) <
      languagePreference prefs (some (prefs.get j)) := by
  have hrev : prefs.reverse.Nodup := List.nodup_reverse.mpr hnd
  have hlen : prefs.reverse.length = prefs.length := List.length_reverse _
  have key : ∀ (k : Fin prefs.length),
      prefs.reverse.indexOf? (prefs.get k) =
        some (prefs.length - 1 - (k : Nat)) := by
    intro k
    have hk : prefs.length - 1 - (k : Nat) < prefs.reverse.length := by
      rw [hlen]
      have := k.isLt
      omega
    have hidx : prefs.length - 1 - (prefs.length - 1 - (k : Nat)) = (k : Nat) := by
      have := k.isLt
      omega
    have hget : prefs.reverse.get ⟨prefs.length - 1 - (k : Nat), hk⟩ =
        prefs.get k := by
      simp only [List.get_eq_getElem, List.getElem_reverse, hidx]
    have := indexOf?_get_nodup prefs.reverse hrev
      ⟨prefs.length - 1 - (k : Nat), hk⟩
    rw [hget] at this
    exact this
  have e1 : languagePreference prefs (some (prefs.get i)) =
      ((prefs.length - 1 - (i : Nat) : Nat) : Int) := by
    simp only [languagePreference, qualities]
    rw [key i]
  have e2 : languagePreference prefs (some (prefs.get j)) =
      ((prefs.length - 1 - (j : Nat) : Nat) : Int) := by
    simp only [languagePreference, qualities]
    rw [key j]
  have e3 : languagePreference prefs (some l) = -1 := by
    simp only [languagePreference, qualities]
    rw [indexOf?_of_not_mem _ _ (by simpa using hl)]
  rw [e1, e2, e3]
  have hi := i.isLt
  have hj := j.isLt
  constructor
  · have : prefs.length - 1 - (j : Nat) < prefs.length - 1 - (i : Nat) := by
      omega
    exact_mod_cast this
  · omega

/-- Witness for C5 at the spec's example preference list `[en, fr]` and the
unlisted language `de`. -/
theorem language_preference_strict_order_witness :
    languagePreference ["en", "fr"] (some "fr") <
      languagePreference ["en", "fr"] (some "en") ∧
    languagePreference ["en", "fr"] (some "de") <
      languagePreference ["en", "fr"] (some "fr") :=
  language_preference_strict_order ["en", "fr"] (by decide)
    ⟨0, by decide⟩ ⟨1, by decide⟩ (by decide) "de" (by decide)

/-- C6 counterexample: with the user-supplied preferred language `int`, the
deduplicated sequence is `[int, en]`, whose last element is `en`, not the
generic fallback `int`. -/
theorem preferred_langs_int_counterexample :
    preferredLangs "int" = ["int", "en"] ∧
    (preferredLangs "int").getLast? ≠ some "int" := by decide

/-- C6 amended: the constructed sequence is deduplicated preserving
first-occurrence order and always contains the generic fallback `int`; it
ends with `int` whenever the user-supplied language is not itself `int` (in
which case `int` is the first element instead). -/
theorem preferred_langs_dedup_fallback (p : String) :
    (preferredLangs p).Nodup ∧ "int" ∈ preferredLangs p ∧
    (p ≠ "int" → (preferredLangs p).getLast? = some "int") := by
  by_cases h1 : p = "en"
  · subst h1
    exact ⟨by decide, by decide, fun _ => by decide⟩
  · by_cases h2 : p = "int"
    · subst h2
      exact ⟨by decide, by decide, fun h => absurd rfl h⟩
    · have h1' : ¬("en" = p) := fun e => h1 e.symm
      have h2' : ¬("int" = p) := fun e => h2 e.symm
      have hval : preferredLangs p = [p, "en", "int"] := by
        simp [preferredLangs, orderedSet, orderedSetAux, h1', h2']
      rw [hval]
      refine ⟨?_, by simp, fun _ => rfl⟩
      simp [h1, h2]

/-- Witness for C6 (amended) at the user language `fr`. -/
theorem preferred_langs_dedup_fallback_witness :
    "int" ∈ preferredLangs "fr" ∧
    (preferredLangs "fr").getLast? = some "int" :=
  ⟨(preferred_langs_dedup_fallback "fr").2.1,
    (preferred_langs_dedup_fallback "fr").2.2 (by decide)⟩

/-- The `_get_lang` loop equals the spec's first-match lookup. -/
theorem getLang_eq_getLangSpec (audios : List MeetingAudio)
    (tid : Option String) :
    getLang audios tid = getLangSpec audios tid := by
  cases tid with
  | none => rfl
  | some t =>
    induction audios with
    | nil => rfl
    | cons a rest ih =>
      by_cases h : a.trackIdentifier = some t
      · simp [getLang, getLang.loop, getLangSpec, List.find?_cons, h]
      · have hb : (a.trackIdentifier == some t) = false := by
          rw [beq_eq_false_iff_ne]
          exact h
        simp only [getLang, getLang.loop, if_neg h] at *
        rw [ih]
        simp [getLangSpec, List.find?_cons, hb]

/-- C7: the relabeling pass rewrites every format entry's language field to
the language of the first `meetingAudio` entry whose `trackIdentifier`
equals it, and to no language when the identifier is absent or unmatched
(`getLangSpec` is `none` in exactly those cases). -/
theorem formats_language_relabel (audios : List MeetingAudio)
    (fmts : List Fmt) :
    relabelFormats audios fmts =
      fmts.map (fun f => { f with language := getLangSpec audios f.language }) := by
  unfold relabelFormats
  simp only [getLang_eq_getLangSpec]

/-- C8: merging a batch of subtitle dictionaries into the running target is
additive — every entry already collected for a language is still present
afterwards. -/
theorem merge_subtitles_additive (newSubs : List (String × List SubEntry))
    (target : String → List SubEntry) (lang : String) (e : SubEntry)
    (he : e ∈ target lang) :
    e ∈ mergeSubtitles newSubs target lang := by
  induction newSubs generalizing target with
  | nil => exact he
  | cons q rest ih =>
    show e ∈ mergeSubtitles rest
      (fun k => if k = q.1 then mergeSubtitleItems (target q.1) q.2 else target k)
      lang
    apply ih
    by_cases hl : lang = q.1
    · subst hl
      simp only [if_pos rfl, mergeSubtitleItems]
      exact List.mem_append_left _ he
    · simp only [if_neg hl]
      exact he

/-- Witness for C8: an entry already collected for `en` survives a merge that
adds another `en` entry. -/
theorem merge_subtitles_additive_witness :
    ({ url := some "u1", data := none } : SubEntry) ∈
      mergeSubtitles [("en", [{ url := some "u2", data := none }])]
        (fun k => if k = "en" then [{ url := some "u1", data := none }] else [])
        "en" :=
  merge_subtitles_additive _ _ "en" _ (by decide)

/-- C9: the webstream title is the first non-absent candidate in the fixed
order: nested media-item title first, then the sibling top-level title. -/
theorem webstream_title_first_available (page : JVal) :
    websTitle page = titleSpec page := by
  unfold websTitle traverseFirst titleSpec nestedTitle siblingTitle
  cases nonNull (jgetPath page ["mediaItem", "title"]) with
  | some t => rfl
  | none =>
    show traverseFirst page [["title"]] = _
    unfold traverseFirst
    cases nonNull (jgetPath page ["title"]) with
    | some t => rfl
    | none => rfl

/-- C10: every format entry built by `EuropaIE` has a non-empty URL, and the
number of entries is exactly the number of playlist files with a present,
non-empty URL — files without one contribute nothing. -/
theorem europa_formats_nonempty_url (prefs : List String)
    (files : List PlaylistFile) :
    (∀ fmt ∈ buildFormats prefs files, fmt.url ≠ "") ∧
    (buildFormats prefs files).length =
      (files.filter (fun f => f.url.getD "" != "")).length := by
  induction files with
  | nil => exact ⟨by simp [buildFormats], rfl⟩
  | cons f rest ih =>
    cases hu : f.url with
    | none =>
      constructor
      · intro fmt hf
        apply ih.1
        simpa [buildFormats, List.filterMap_cons, hu] using hf
      · have : buildFormats prefs (f :: rest) = buildFormats prefs rest := by
          simp [buildFormats, List.filterMap_cons, hu]
        rw [this, ih.2]
        simp [List.filter_cons, hu]
    | some u =>
      by_cases he : u = ""
      · subst he
        constructor
        · intro fmt hf
          apply ih.1
          simpa [buildFormats, List.filterMap_cons, hu] using hf
        · have : buildFormats prefs (f :: rest) = buildFormats prefs rest := by
            simp [buildFormats, List.filterMap_cons, hu]
          rw [this, ih.2]
          simp [List.filter_cons, hu]
      · have hcons : buildFormats prefs (f :: rest) =
            { url := u, format_id := f.lg, format_note := f.lglabel,
              language_preference := languagePreference prefs f.lg } ::
              buildFormats prefs rest := by
          simp [buildFormats, List.filterMap_cons, hu, he]
        constructor
        · intro fmt hf
          rw [hcons] at hf
          rcases List.mem_cons.mp hf with h | h
          · rw [h]
            exact he
          · exact ih.1 fmt h
        · rw [hcons]
          simp only [List.length_cons, ih.2, List.filter_cons, hu]
          simp [he]

/-- Witness for C10: a single file with URL `http://x` yields one entry,
whose URL is non-empty. -/
theorem europa_formats_nonempty_url_witness :
    ({ url := "http://x", format_id := some "en", format_note := none,
        language_preference := 0 } : EuropaFormat).url ≠ "" :=
  (europa_formats_nonempty_url ["en"]
    [{ url := some "http://x", lg := some "en", lglabel := none }]).1 _
    (by decide)

/-- A digit character is never the dot. -/
theorem ne_dot_of_digit (c : Char) (h : c.isDigit = true) : c ≠ '.' := by
  intro e
  rw [e] at h
  exact absurd h (by decide)

/-- The tail after `dropWhile isDigit` never starts with a digit. -/
theorem noDigitHead_dropWhile (l : List Char) :
    noDigitHead (l.dropWhile Char.isDigit) := by
  have h := List.head?_dropWhile_not Char.isDigit l
  cases hd : l.dropWhile Char.isDigit with
  | nil => exact trivial
  | cons c cs =>
    simp only [noDigitHead]
    rw [hd] at h
    simpa using h

/-- `takeWhile isDigit` over a digit block followed by a non-digit head. -/
theorem takeWhile_digits_append (f z : List Char)
    (hf : ∀ c ∈ f, c.isDigit = true) (hz : noDigitHead z) :
    (f ++ z).takeWhile Char.isDigit = f := by
  induction f with
  | nil =>
    cases z with
    | nil => rfl
    | cons c cs =>
      simp only [noDigitHead] at hz
      simp [List.takeWhile_cons, hz]
  | cons c cs ih =>
    have hc : c.isDigit = true := hf c (by simp)
    rw [List.cons_append, List.takeWhile_cons_of_pos hc,
      ih (fun x hx => hf x (by simp [hx]))]

/-- `dropWhile isDigit` over a digit block followed by a non-digit head. -/
theorem dropWhile_digits_append (f z : List Char)
    (hf : ∀ c ∈ f, c.isDigit = true) (hz : noDigitHead z) :
    (f ++ z).dropWhile Char.isDigit = z := by
  induction f with
  | nil =>
    cases z with
    | nil => rfl
    | cons c cs =>
      simp only [noDigitHead] at hz
      simp [List.dropWhile_cons, hz]
  | cons c cs ih =>
    have hc : c.isDigit = true := hf c (by simp)
    rw [List.cons_append, List.dropWhile_cons_of_pos hc]
    exact ih (fun x hx => hf x (by simp [hx]))

/-- The copying state of `truncGo` emits the next `k` characters verbatim. -/
theorem truncGo_copy (f w : List Char) :
    truncGo (some f.length) (f ++ w) = f ++ truncGo (some 0) w := by
  induction f with
  | nil => rfl
  | cons c cs ih =>
    rw [List.cons_append]
    show c :: truncGo (some cs.length) (cs ++ w) = c :: (cs ++ truncGo (some 0) w)
    rw [ih]

/-- The dropping state of `truncGo` discards a leading digit block. -/
theorem truncGo_zero_digits (f w : List Char)
    (hf : ∀ c ∈ f, c.isDigit = true) :
    truncGo (some 0) (f ++ w) = truncGo (some 0) w := by
  induction f with
  | nil => rfl
  | cons c cs ih =>
    have hc : c.isDigit = true := hf c (by simp)
    rw [List.cons_append]
    show truncGo (some 0) (c :: (cs ++ w)) = _
    simp only [truncGo, hc, if_true]
    exact ih (fun x hx => hf x (by simp [hx]))

/-- On a non-digit head the dropping state behaves like the scanning state. -/
theorem truncGo_zero_none (z : List Char) (hz : noDigitHead z) :
    truncGo (some 0) z = truncGo none z := by
  cases z with
  | nil => rfl
  | cons c cs =>
    simp only [noDigitHead] at hz
    simp [truncGo, hz]

/-- The scanning state copies any dot-free block verbatim. -/
theorem truncGo_no_dot_append (a b : List Char) (ha : ∀ c ∈ a, c ≠ '.') :
    truncGo none (a ++ b) = a ++ truncGo none b := by
  induction a with
  | nil => rfl
  | cons c cs ih =>
    have hc : c ≠ '.' := ha c (by simp)
    rw [List.cons_append]
    show truncGo none (c :: (cs ++ b)) = _
    simp only [truncGo]
    rw [if_neg (fun hand => hc hand.1), ih (fun x hx => ha x (by simp [hx]))]
    rfl

/-- Scanning preserves a non-digit head (any rewritten run starts with the
kept dot, which is not a digit). -/
theorem noDigitHead_truncGo (z : List Char) (hz : noDigitHead z) :
    noDigitHead (truncGo none z) := by
  cases z with
  | nil => exact trivial
  | cons c cs =>
    simp only [noDigitHead] at hz
    by_cases g : c = '.' ∧ 6 ≤ (cs.takeWhile Char.isDigit).length
    · simp only [truncGo, if_pos g]
      simp [noDigitHead]
    · simp only [truncGo, if_neg g]
      simpa [noDigitHead] using hz

/-- The accepting scan step, isolated so the `if` can be resolved by an
explicit hypothesis. -/
theorem truncGo_none_cons_pos (c : Char) (cs : List Char)
    (h : c = '.' ∧ 6 ≤ (cs.takeWhile Char.isDigit).length) :
    truncGo none (c :: cs) = '.' :: truncGo (some 6) cs := by
  show (if c = '.' ∧ 6 ≤ (cs.takeWhile Char.isDigit).length then
    '.' :: truncGo (some 6) cs else c :: truncGo none cs) = _
  rw [if_pos h]

/-- The rejecting scan step. -/
theorem truncGo_none_cons_neg (c : Char) (cs : List Char)
    (h : ¬(c = '.' ∧ 6 ≤ (cs.takeWhile Char.isDigit).length)) :
    truncGo none (c :: cs) = c :: truncGo none cs := by
  show (if c = '.' ∧ 6 ≤ (cs.takeWhile Char.isDigit).length then
    '.' :: truncGo (some 6) cs else c :: truncGo none cs) = _
  rw [if_neg h]

/-- The accepted-dot step of the scan: with a following digit run of length
at least six, the dot and the first six digits are kept and the rest of the
run is dropped. -/
theorem truncGo_dot_big (f z : List Char) (hf : ∀ c ∈ f, c.isDigit = true)
    (h6 : 6 ≤ f.length) (hz : noDigitHead z) :
    truncGo none ('.' :: (f ++ z)) = '.' :: (f.take 6 ++ truncGo none z) := by
  have htw : (f ++ z).takeWhile Char.isDigit = f :=
    takeWhile_digits_append f z hf hz
  rw [truncGo_none_cons_pos '.' (f ++ z) ⟨rfl, by rw [htw]; exact h6⟩]
  congr 1
  have hsplit : f ++ z = f.take 6 ++ (f.drop 6 ++ z) := by
    rw [← List.append_assoc, List.take_append_drop]
  rw [hsplit]
  have hlen : (f.take 6).length = 6 := by
    rw [List.length_take]
    omega
  have hcopy := truncGo_copy (f.take 6) (f.drop 6 ++ z)
  rw [hlen] at hcopy
  rw [hcopy]
  congr 1
  rw [truncGo_zero_digits (f.drop 6) z (fun x hx => hf x (List.mem_of_mem_drop hx))]
  exact truncGo_zero_none z hz

/-- The rejected-dot step of the scan: a following digit run shorter than six
leaves the dot and the run untouched. -/
theorem truncGo_dot_small (f z : List Char) (hf : ∀ c ∈ f, c.isDigit = true)
    (h6 : f.length < 6) (hz : noDigitHead z) :
    truncGo none ('.' :: (f ++ z)) = '.' :: (f ++ truncGo none z) := by
  have htw : (f ++ z).takeWhile Char.isDigit = f :=
    takeWhile_digits_append f z hf hz
  have hguard : ¬(('.' : Char) = '.' ∧
      6 ≤ ((f ++ z).takeWhile Char.isDigit).length) := by
    rw [htw]
    intro hand
    omega
  rw [truncGo_none_cons_neg '.' (f ++ z) hguard]
  congr 1
  exact truncGo_no_dot_append f z (fun c hc => ne_dot_of_digit c (hf c hc))

/-- Scanning does not change the leading digit run. -/
theorem takeWhile_truncGo (l : List Char) :
    (truncGo none l).takeWhile Char.isDigit = l.takeWhile Char.isDigit := by
  have hf : ∀ c ∈ l.takeWhile Char.isDigit, c.isDigit = true :=
    fun c hc => List.mem_takeWhile_imp hc
  have hz : noDigitHead (l.dropWhile Char.isDigit) := noDigitHead_dropWhile l
  calc (truncGo none l).takeWhile Char.isDigit
      = (truncGo none (l.takeWhile Char.isDigit ++
          l.dropWhile Char.isDigit)).takeWhile Char.isDigit := by
        rw [List.takeWhile_append_dropWhile]
    _ = (l.takeWhile Char.isDigit ++
          truncGo none (l.dropWhile Char.isDigit)).takeWhile Char.isDigit := by
        rw [truncGo_no_dot_append _ _ (fun c hc => ne_dot_of_digit c (hf c hc))]
    _ = l.takeWhile Char.isDigit :=
        takeWhile_digits_append _ _ hf (noDigitHead_truncGo _ hz)

/-- The scan is idempotent (strong induction on the list length). -/
theorem truncGo_idem_aux :
    ∀ (n : Nat) (l : List Char), l.length ≤ n →
      truncGo none (truncGo none l) = truncGo none l := by
  intro n
  induction n with
  | zero =>
    intro l hl
    have : l = [] := List.length_eq_zero.mp (Nat.le_zero.mp hl)
    subst this
    rfl
  | succ n ih =>
    intro l hl
    cases l with
    | nil => rfl
    | cons c cs =>
      have hcs : cs.length ≤ n := by
        simp only [List.length_cons] at hl
        omega
      by_cases g : c = '.' ∧ 6 ≤ (cs.takeWhile Char.isDigit).length
      · obtain ⟨gc, g6⟩ := g
        subst gc
        have hf : ∀ x ∈ cs.takeWhile Char.isDigit, x.isDigit = true :=
          fun x hx => List.mem_takeWhile_imp hx
        have hz : noDigitHead (cs.dropWhile Char.isDigit) := noDigitHead_dropWhile cs
        have hinner : truncGo none ('.' :: cs) =
            '.' :: ((cs.takeWhile Char.isDigit).take 6 ++
              truncGo none (cs.dropWhile Char.isDigit)) := by
          conv_lhs => rw [← List.takeWhile_append_dropWhile (p := Char.isDigit) (l := cs)]
          exact truncGo_dot_big _ _ hf g6 hz
        rw [hinner]
        have hf6 : ∀ x ∈ (cs.takeWhile Char.isDigit).take 6, x.isDigit = true :=
          fun x hx => hf x (List.mem_of_mem_take hx)
        have hzT : noDigitHead (truncGo none (cs.dropWhile Char.isDigit)) :=
          noDigitHead_truncGo _ hz
        have h6len : 6 ≤ ((cs.takeWhile Char.isDigit).take 6).length := by
          rw [List.length_take]
          omega
        rw [truncGo_dot_big ((cs.takeWhile Char.isDigit).take 6)
          (truncGo none (cs.dropWhile Char.isDigit)) hf6 h6len hzT]
        have hzlen : (cs.dropWhile Char.isDigit).length ≤ n := by
          have : (cs.dropWhile Char.isDigit).length ≤ cs.length :=
            (List.dropWhile_sublist _).length_le
          omega
        rw [List.take_take]
        simp only [Nat.min_self]
        rw [ih _ hzlen]
      · have hstep : truncGo none (c :: cs) = c :: truncGo none cs := by
          simp only [truncGo]
          rw [if_neg g]
        rw [hstep]
        have g2 : ¬(c = '.' ∧ 6 ≤ ((truncGo none cs).takeWhile Char.isDigit).length) := by
          rw [takeWhile_truncGo]
          exact g
        have hstep2 : truncGo none (c :: truncGo none cs) =
            c :: truncGo none (truncGo none cs) := by
          simp only [truncGo]
          rw [if_neg g2]
        rw [hstep2, ih _ hcs]

/-- The truncation substitution is idempotent. -/
theorem truncFrac_idem (l : List Char) : truncFrac (truncFrac l) = truncFrac l :=
  truncGo_idem_aux l.length l (Nat.le_refl _)

/-- Reduce a bind on a present value. -/
theorem optSomeBind {α β : Type} (a : α) (f : α → Option β) :
    (some a >>= f) = f a := rfl

/-- Destructure a monadic bind on `Option` that produced a value. -/
theorem optBind_eq_some {α β : Type} (x : Option α) (f : α → Option β) (b : β)
    (h : (x >>= f) = some b) : ∃ a, x = some a ∧ f a = some b := by
  rw [show (x >>= f) = x.bind f from rfl, Option.bind_eq_some] at h
  exact h

/-- A successful `eatChar` exposes the consumed literal. -/
theorem eatChar_eq_some (a : Char) (cs r : List Char)
    (h : eatChar a cs = some r) : cs = a :: r := by
  cases cs with
  | nil => exact absurd h (by simp [eatChar])
  | cons c cs2 =>
    simp only [eatChar] at h
    by_cases hc : c = a
    · rw [if_pos hc] at h
      injection h with h2
      rw [hc, h2]
    · rw [if_neg hc] at h
      exact absurd h (by simp)

/-- `eatChar` consumes its literal. -/
theorem eatChar_cons (a : Char) (r : List Char) : eatChar a (a :: r) = some r := by
  simp [eatChar]

/-- A successful `eatDigits` exposes the consumed digit block. -/
theorem eatDigits_eq_some :
    ∀ (n : Nat) (cs r : List Char), eatDigits n cs = some r →
      ∃ p, cs = p ++ r ∧ p.length = n ∧ ∀ c ∈ p, c.isDigit = true := by
  intro n
  induction n with
  | zero =>
    intro cs r h
    simp only [eatDigits, Option.some.injEq] at h
    exact ⟨[], by simp [h], rfl, by simp⟩
  | succ n ih =>
    intro cs r h
    cases cs with
    | nil => exact absurd h (by simp [eatDigits])
    | cons c cs2 =>
      simp only [eatDigits] at h
      by_cases hc : c.isDigit
      · rw [if_pos hc] at h
        obtain ⟨p, hp1, hp2, hp3⟩ := ih cs2 r h
        refine ⟨c :: p, by simp [hp1], by simp [hp2], ?_⟩
        intro x hx
        rcases List.mem_cons.mp hx with e | e
        · rw [e]
          exact hc
        · exact hp3 x e
      · rw [if_neg hc] at h
        exact absurd h (by simp)

/-- `eatDigits` consumes any all-digit block of the right length. -/
theorem eatDigits_append :
    ∀ (p r : List Char), (∀ c ∈ p, c.isDigit = true) →
      eatDigits p.length (p ++ r) = some r := by
  intro p
  induction p with
  | nil => intro r _; rfl
  | cons c cs ih =>
    intro r hp
    have hc : c.isDigit = true := hp c (by simp)
    show eatDigits (cs.length + 1) (c :: (cs ++ r)) = some r
    simp only [eatDigits, hc, if_true]
    exact ih r (fun x hx => hp x (by simp [hx]))

/-- A successful `eatSign` exposes the consumed sign character. -/
theorem eatSign_eq_some (cs r : List Char) (h : eatSign cs = some r) :
    ∃ c, cs = c :: r ∧ (c = '+' ∨ c = '-') := by
  cases cs with
  | nil => exact absurd h (by simp [eatSign])
  | cons c cs2 =>
    simp only [eatSign] at h
    by_cases hc : c = '+' ∨ c = '-'
    · rw [if_pos hc] at h
      injection h with h2
      exact ⟨c, by rw [h2], hc⟩
    · rw [if_neg hc] at h
      exact absurd h (by simp)

/-- `eatSign` consumes a sign character. -/
theorem eatSign_cons (c : Char) (r : List Char) (hc : c = '+' ∨ c = '-') :
    eatSign (c :: r) = some r := by
  simp [eatSign, hc]

/-- The timezone shape decomposes into its six characters. -/
theorem tzShape_decomp (z : List Char) (h : tzShape z = true) :
    ∃ c0 d1 d2 d3 d4 z2, z = c0 :: d1 :: d2 :: ':' :: d3 :: d4 :: z2 ∧
      (c0 = '+' ∨ c0 = '-') ∧ d1.isDigit = true ∧ d2.isDigit = true ∧
      d3.isDigit = true ∧ d4.isDigit = true := by
  unfold tzShape at h
  rw [Option.isSome_iff_exists] at h
  obtain ⟨r, hr⟩ := h
  obtain ⟨r3, hr3, hlast⟩ := optBind_eq_some _ _ _ hr
  obtain ⟨r2, hr2, hmid⟩ := optBind_eq_some _ _ _ hr3
  obtain ⟨r1, hsign, hdig1⟩ := optBind_eq_some _ _ _ hr2
  obtain ⟨c0, hz0, hc0⟩ := eatSign_eq_some z r1 hsign
  obtain ⟨p1, hp1, hl1, hd1⟩ := eatDigits_eq_some 2 r1 r2 hdig1
  have hmid2 := eatChar_eq_some ':' r2 r3 hmid
  obtain ⟨p2, hp2, hl2, hd2⟩ := eatDigits_eq_some 2 r3 r hlast
  obtain ⟨d1, d2, hp1e⟩ := List.length_eq_two.mp hl1
  obtain ⟨d3, d4, hp2e⟩ := List.length_eq_two.mp hl2
  subst hp1e hp2e
  refine ⟨c0, d1, d2, d3, d4, r, ?_, hc0, hd1 d1 (by simp), hd1 d2 (by simp),
    hd2 d3 (by simp), hd2 d4 (by simp)⟩
  rw [hz0, hp1, hmid2, hp2]
  simp

/-- Any string with the six timezone characters up front passes the timezone
shape check, whatever follows. -/
theorem tzShape_cons (c0 d1 d2 d3 d4 : Char) (w : List Char)
    (hc0 : c0 = '+' ∨ c0 = '-') (h1 : d1.isDigit = true) (h2 : d2.isDigit = true)
    (h3 : d3.isDigit = true) (h4 : d4.isDigit = true) :
    tzShape (c0 :: d1 :: d2 :: ':' :: d3 :: d4 :: w) = true := by
  unfold tzShape
  rw [eatSign_cons _ _ hc0]
  simp [eatDigits, eatChar, h1, h2, h3, h4]

/-- A successful datetime head check decomposes the input into a 19-character
head without dots, after which the check replays on any continuation. -/
theorem dtHeadShape_decomp (s r : List Char) (h : dtHeadShape s = some r) :
    ∃ H, s = H ++ r ∧ (∀ c ∈ H, c ≠ '.') ∧
      (∀ w, dtHeadShape (H ++ w) = some w) := by
  unfold dtHeadShape at h
  obtain ⟨r10, h10, hf6⟩ := optBind_eq_some _ _ _ h
  obtain ⟨r9, h9, hc5⟩ := optBind_eq_some _ _ _ h10
  obtain ⟨r8, h8, hf5⟩ := optBind_eq_some _ _ _ h9
  obtain ⟨r7, h7, hc4⟩ := optBind_eq_some _ _ _ h8
  obtain ⟨r6, h6, hf4⟩ := optBind_eq_some _ _ _ h7
  obtain ⟨r5, h5, hc3⟩ := optBind_eq_some _ _ _ h6
  obtain ⟨r4, h4, hf3⟩ := optBind_eq_some _ _ _ h5
  obtain ⟨r3, h3, hc2⟩ := optBind_eq_some _ _ _ h4
  obtain ⟨r2, h2, hf2⟩ := optBind_eq_some _ _ _ h3
  obtain ⟨r1, h1, hc1⟩ := optBind_eq_some _ _ _ h2
  obtain ⟨A, hA, hlA, hdA⟩ := eatDigits_eq_some 4 s r1 h1
  have e1 := eatChar_eq_some '-' r1 r2 hc1
  obtain ⟨B, hB, hlB, hdB⟩ := eatDigits_eq_some 2 r2 r3 hf2
  have e2 := eatChar_eq_some '-' r3 r4 hc2
  obtain ⟨C, hC, hlC, hdC⟩ := eatDigits_eq_some 2 r4 r5 hf3
  have e3 := eatChar_eq_some 'T' r5 r6 hc3
  obtain ⟨D, hD, hlD, hdD⟩ := eatDigits_eq_some 2 r6 r7 hf4
  have e4 := eatChar_eq_some ':' r7 r8 hc4
  obtain ⟨E, hE, hlE, hdE⟩ := eatDigits_eq_some 2 r8 r9 hf5
  have e5 := eatChar_eq_some ':' r9 r10 hc5
  obtain ⟨F, hF, hlF, hdF⟩ := eatDigits_eq_some 2 r10 r hf6
  refine ⟨A ++ ('-' :: (B ++ ('-' :: (C ++ ('T' :: (D ++ (':' ::
    (E ++ (':' :: F))))))))), ?_, ?_, ?_⟩
  · rw [hA, e1, hB, e2, hC, e3, hD, e4, hE, e5, hF]
    simp [List.append_assoc]
  · intro c hc
    rcases List.mem_append.mp hc with hm | hm
    · exact ne_dot_of_digit c (hdA c hm)
    rcases List.mem_cons.mp hm with hm | hm
    · rw [hm]; decide
    rcases List.mem_append.mp hm with hm | hm
    · exact ne_dot_of_digit c (hdB c hm)
    rcases List.mem_cons.mp hm with hm | hm
    · rw [hm]; decide
    rcases List.mem_append.mp hm with hm | hm
    · exact ne_dot_of_digit c (hdC c hm)
    rcases List.mem_cons.mp hm with hm | hm
    · rw [hm]; decide
    rcases List.mem_append.mp hm with hm | hm
    · exact ne_dot_of_digit c (hdD c hm)
    rcases List.mem_cons.mp hm with hm | hm
    · rw [hm]; decide
    rcases List.mem_append.mp hm with hm | hm
    · exact ne_dot_of_digit c (hdE c hm)
    rcases List.mem_cons.mp hm with hm | hm
    · rw [hm]; decide
    exact ne_dot_of_digit c (hdF c hm)
  · intro w
    have sA : ∀ x, eatDigits 4 (A ++ x) = some x := fun x => by
      rw [← hlA]; exact eatDigits_append A x hdA
    have sB : ∀ x, eatDigits 2 (B ++ x) = some x := fun x => by
      rw [← hlB]; exact eatDigits_append B x hdB
    have sC : ∀ x, eatDigits 2 (C ++ x) = some x := fun x => by
      rw [← hlC]; exact eatDigits_append C x hdC
    have sD : ∀ x, eatDigits 2 (D ++ x) = some x := fun x => by
      rw [← hlD]; exact eatDigits_append D x hdD
    have sE : ∀ x, eatDigits 2 (E ++ x) = some x := fun x => by
      rw [← hlE]; exact eatDigits_append E x hdE
    have sF : ∀ x, eatDigits 2 (F ++ x) = some x := fun x => by
      rw [← hlF]; exact eatDigits_append F x hdF
    unfold dtHeadShape
    simp only [List.append_assoc, List.cons_append]
    rw [sA]
    simp only [optSomeBind]
    rw [eatChar_cons]
    simp only [optSomeBind]
    rw [sB]
    simp only [optSomeBind]
    rw [eatChar_cons]
    simp only [optSomeBind]
    rw [sC]
    simp only [optSomeBind]
    rw [eatChar_cons]
    simp only [optSomeBind]
    rw [sD]
    simp only [optSomeBind]
    rw [eatChar_cons]
    simp only [optSomeBind]
    rw [sE]
    simp only [optSomeBind]
    rw [eatChar_cons]
    simp only [optSomeBind]
    rw [sF]

/-- A matched with-microseconds string decomposes into head, dot, fractional
run and timezone (plus arbitrary trailing characters). -/
theorem matchWithMicro_decomp (s : List Char) (h : matchWithMicro s = true) :
    ∃ H f c0 d1 d2 d3 d4 z2,
      s = H ++ '.' :: (f ++ (c0 :: d1 :: d2 :: ':' :: d3 :: d4 :: z2)) ∧
      (∀ c ∈ H, c ≠ '.') ∧ (∀ w, dtHeadShape (H ++ w) = some w) ∧
      (∀ c ∈ f, c.isDigit = true) ∧ 1 ≤ f.length ∧ f.length ≤ 7 ∧
      (c0 = '+' ∨ c0 = '-') ∧ d1.isDigit = true ∧ d2.isDigit = true ∧
      d3.isDigit = true ∧ d4.isDigit = true := by
  unfold matchWithMicro at h
  split at h
  · simp at h
  · rename_i r heq
    split at h
    · rename_i r2
      simp only [Bool.and_eq_true, decide_eq_true_eq] at h
      obtain ⟨⟨h1, h7⟩, htz⟩ := h
      obtain ⟨c0, d1, d2, d3, d4, z2, hzeq, hc0, hd1, hd2, hd3, hd4⟩ :=
        tzShape_decomp _ htz
      obtain ⟨H, hs, hH, hHrep⟩ := dtHeadShape_decomp s ('.' :: r2) heq
      refine ⟨H, r2.takeWhile Char.isDigit, c0, d1, d2, d3, d4, z2, ?_, hH,
        hHrep, fun c hcm => List.mem_takeWhile_imp hcm, h1, h7, hc0,
        hd1, hd2, hd3, hd4⟩
      rw [hs]
      have hr2 : r2 = r2.takeWhile Char.isDigit ++
          (c0 :: d1 :: d2 :: ':' :: d3 :: d4 :: z2) := by
        conv_lhs => rw [← List.takeWhile_append_dropWhile
          (p := Char.isDigit) (l := r2)]
        rw [hzeq]
      rw [← hr2]
    · simp at h

/-- Any string of head, dot, a digit run of admissible length, and timezone
matches the with-microseconds pre-check, regardless of the tail. -/
theorem matchWithMicro_recon (H f : List Char) (c0 d1 d2 d3 d4 : Char)
    (w : List Char) (hHrep : ∀ x, dtHeadShape (H ++ x) = some x)
    (hf : ∀ c ∈ f, c.isDigit = true) (h1 : 1 ≤ f.length) (h7 : f.length ≤ 7)
    (hc0 : c0 = '+' ∨ c0 = '-') (hd1 : d1.isDigit = true)
    (hd2 : d2.isDigit = true) (hd3 : d3.isDigit = true)
    (hd4 : d4.isDigit = true) :
    matchWithMicro
      (H ++ '.' :: (f ++ (c0 :: d1 :: d2 :: ':' :: d3 :: d4 :: w))) = true := by
  have hc0d : c0.isDigit = false := by
    rcases hc0 with e | e <;> rw [e] <;> decide
  have hnz : noDigitHead (c0 :: d1 :: d2 :: ':' :: d3 :: d4 :: w) := by
    simp only [noDigitHead]
    exact hc0d
  have htw := takeWhile_digits_append f _ hf hnz
  have hdw := dropWhile_digits_append f _ hf hnz
  unfold matchWithMicro
  rw [hHrep ('.' :: (f ++ (c0 :: d1 :: d2 :: ':' :: d3 :: d4 :: w)))]
  show (decide (1 ≤ ((f ++ (c0 :: d1 :: d2 :: ':' :: d3 :: d4 ::
        w)).takeWhile Char.isDigit).length) &&
      decide (((f ++ (c0 :: d1 :: d2 :: ':' :: d3 :: d4 ::
        w)).takeWhile Char.isDigit).length ≤ 7) &&
      tzShape ((f ++ (c0 :: d1 :: d2 :: ':' :: d3 :: d4 ::
        w)).dropWhile Char.isDigit)) = true
  rw [htw, hdw]
  simp only [Bool.and_eq_true, decide_eq_true_eq]
  exact ⟨⟨h1, h7⟩, tzShape_cons c0 d1 d2 d3 d4 w hc0 hd1 hd2 hd3 hd4⟩

/-- C1 (amended): every string matching the with-microseconds pre-check — its
fractional run has at most seven digits — is parsed exactly like its
truncation; the truncation still matches the pre-check and carries exactly
six fractional digits whenever the original had six or more (in particular
seven). -/
theorem parse_datetime_trunc (s : List Char) (h : matchWithMicro s = true) :
    matchWithMicro (truncFrac s) = true ∧
    (6 ≤ (fracDigits s).length → (fracDigits (truncFrac s)).length = 6) ∧
    (fracDigits s).length ≤ 7 ∧
    parse_datetime s = parse_datetime (truncFrac s) := by
  obtain ⟨H, f, c0, d1, d2, d3, d4, z2, hs, hH, hHrep, hf, h1, h7, hc0,
    hd1, hd2, hd3, hd4⟩ := matchWithMicro_decomp s h
  have hc0d : c0.isDigit = false := by
    rcases hc0 with e | e <;> rw [e] <;> decide
  have hnz : noDigitHead (c0 :: d1 :: d2 :: ':' :: d3 :: d4 :: z2) := by
    simp only [noDigitHead]
    exact hc0d
  have hds : dtHeadShape s =
      some ('.' :: (f ++ (c0 :: d1 :: d2 :: ':' :: d3 :: d4 :: z2))) := by
    rw [hs]
    exact hHrep _
  have hfds : fracDigits s = f := by
    unfold fracDigits
    rw [hds]
    show (f ++ (c0 :: d1 :: d2 :: ':' :: d3 :: d4 ::
      z2)).takeWhile Char.isDigit = f
    exact takeWhile_digits_append f _ hf hnz
  have hz6dot : ∀ c ∈ ([c0, d1, d2, ':', d3, d4] : List Char), c ≠ '.' := by
    intro c hc
    simp only [List.mem_cons, List.not_mem_nil, or_false] at hc
    rcases hc with e | e | e | e | e | e
    · rcases hc0 with e2 | e2 <;> rw [e, e2] <;> decide
    · exact ne_dot_of_digit c (e ▸ hd1)
    · exact ne_dot_of_digit c (e ▸ hd2)
    · rw [e]; decide
    · exact ne_dot_of_digit c (e ▸ hd3)
    · exact ne_dot_of_digit c (e ▸ hd4)
  have hzpass : truncGo none (c0 :: d1 :: d2 :: ':' :: d3 :: d4 :: z2) =
      c0 :: d1 :: d2 :: ':' :: d3 :: d4 :: truncGo none z2 := by
    have := truncGo_no_dot_append [c0, d1, d2, ':', d3, d4] z2 hz6dot
    simpa using this
  have parseEq : matchWithMicro (truncFrac s) = true →
      parse_datetime s = parse_datetime (truncFrac s) := by
    intro hm2
    unfold parse_datetime
    rw [if_pos h, if_pos hm2, truncFrac_idem s]
  by_cases h6 : 6 ≤ f.length
  · have htr : truncFrac s = H ++ '.' :: (f.take 6 ++
        (c0 :: d1 :: d2 :: ':' :: d3 :: d4 :: truncGo none z2)) := by
      rw [truncFrac, hs, truncGo_no_dot_append H _ hH]
      congr 1
      rw [truncGo_dot_big f _ hf h6 hnz]
      congr 2
    have hm2 : matchWithMicro (truncFrac s) = true := by
      rw [htr]
      exact matchWithMicro_recon H (f.take 6) c0 d1 d2 d3 d4
        (truncGo none z2) hHrep (fun c hc => hf c (List.mem_of_mem_take hc))
        (by rw [List.length_take]; omega) (by rw [List.length_take]; omega)
        hc0 hd1 hd2 hd3 hd4
    have hfd2 : fracDigits (truncFrac s) = f.take 6 := by
      unfold fracDigits
      rw [htr, hHrep]
      show (f.take 6 ++ (c0 :: d1 :: d2 :: ':' :: d3 :: d4 ::
        truncGo none z2)).takeWhile Char.isDigit = f.take 6
      exact takeWhile_digits_append _ _
        (fun c hc => hf c (List.mem_of_mem_take hc))
        (by simp only [noDigitHead]; exact hc0d)
    refine ⟨hm2, ?_, ?_, parseEq hm2⟩
    · intro _
      rw [hfd2, List.length_take]
      omega
    · rw [hfds]
      exact h7
  · have h6lt : f.length < 6 := by omega
    have htr : truncFrac s = H ++ '.' :: (f ++
        (c0 :: d1 :: d2 :: ':' :: d3 :: d4 :: truncGo none z2)) := by
      rw [truncFrac, hs, truncGo_no_dot_append H _ hH]
      congr 1
      rw [truncGo_dot_small f _ hf h6lt hnz]
      congr 2
    have hm2 : matchWithMicro (truncFrac s) = true := by
      rw [htr]
      exact matchWithMicro_recon H f c0 d1 d2 d3 d4
        (truncGo none z2) hHrep hf h1 h7 hc0 hd1 hd2 hd3 hd4
    refine ⟨hm2, ?_, ?_, parseEq hm2⟩
    · intro h66
      rw [hfds] at h66
      exact absurd h66 h6
    · rw [hfds]
      exact h7

/-- Witness for C1 (amended) at a seven-fractional-digit input: it matches
the pre-check and parses exactly like its six-digit truncation, which is the
instant of the corresponding six-digit string. -/
theorem parse_datetime_trunc_witness :
    matchWithMicro "2022-09-14T09:00:00.1234567+02:00".toList = true ∧
    parse_datetime "2022-09-14T09:00:00.1234567+02:00".toList =
      parse_datetime (truncFrac "2022-09-14T09:00:00.1234567+02:00".toList) :=
  ⟨by decide, (parse_datetime_trunc _ (by decide)).2.2.2⟩
